import Mathlib

/-!
Verification of the bit-level utility primitives of the TestUtil repository
(`Util::PackBits`, `Util::UnpackBits`, `Util::ReverseBytes`,
`Util::ToLittleEndian`/`Util::ToBigEndian`, `Util::ToNum`), shallowly embedded
over `Nat`.  A value of an unsigned integer type with `K` bytes is modelled as
a natural number `v < 256^K`; all operations work on the logical
most-significant-byte-first decomposition described in the specification.
-/

namespace Util

/-- The `K` base-`B` digits of `v`, least significant first. -/
def toDigits (B K v : Nat) : List Nat :=
  match K with
  | 0 => []
  | K + 1 => v % B :: toDigits B K (v / B)

/-- Reassemble a list of base-`B` digits (least significant first). -/
def fromDigits (B : Nat) : List Nat → Nat
  | [] => 0
  | d :: ds => d + B * fromDigits B ds

/-- The `K` bytes of `v`, least significant first. -/
def bytesOf (K v : Nat) : List Nat := toDigits 256 K v

/-- Modelled from the spec: `Util::PackBits<N>` on a `K`-byte unsigned value
(the implementation header is absent from the repository; §4.2 of the spec
gives the algorithm).  Decompose `value` into its `K` bytes; if any byte has
bits above its low `N` (i.e. `b >> N != 0`) return `value` unchanged,
otherwise concatenate the low `N` bits of the bytes, most significant chunk
first, right-aligned. -/
def PackBits (N K value : Nat) : Nat :=
  if (bytesOf K value).all (fun b => b >>> N == 0) then
    fromDigits (2 ^ N) ((bytesOf K value).map (fun b => b % 2 ^ N))
  else
    value

/-- Modelled from the spec: `Util::UnpackBits<N>` on a `K`-byte unsigned value
(the implementation header is absent from the repository; §4.2 of the spec
gives the algorithm).  Treat the low `K*N` bits of `packed` as `K` chunks of
`N` bits, most significant chunk first, zero-extend each chunk to a byte and
reassemble the bytes. -/
def UnpackBits (N K packed : Nat) : Nat :=
  fromDigits 256 (toDigits (2 ^ N) K packed)

/-- Modelled from the spec: `Util::ReverseBytes` on a `K`-byte unsigned value
(the implementation header is absent from the repository; §4.1 of the spec).
Reverses the byte order unconditionally. -/
def ReverseBytes (K v : Nat) : Nat :=
  fromDigits 256 (bytesOf K v).reverse

/-- Modelled from the spec: `Util::ReverseBytes` on a fixed-size byte/char
sequence (the implementation header is absent from the repository; §4.1 of
the spec): reverses the sequence. -/
def ReverseBytesSeq (buf : List Char) : List Char := buf.reverse

/-- Modelled from the spec: `Util::ToLittleEndian` (the implementation header
is absent from the repository; §4.1 of the spec).  `bigHost` is the host
endianness (`Util::IsBigEndian()`): return `v` unchanged if the host already
matches the target order, otherwise the fully byte-reversed value. -/
def ToLittleEndian (bigHost : Bool) (K v : Nat) : Nat :=
  if bigHost then ReverseBytes K v else v

/-- Modelled from the spec: `Util::ToBigEndian` (the implementation header is
absent from the repository; §4.1 of the spec).  Return `v` unchanged if the
host is big-endian, otherwise the fully byte-reversed value. -/
def ToBigEndian (bigHost : Bool) (K v : Nat) : Nat :=
  if bigHost then v else ReverseBytes K v

/-- Decimal value of a digit string, most significant digit first. -/
def decimalValue (s : List Char) : Nat :=
  s.foldl (fun acc c => acc * 10 + (c.toNat - 48)) 0

/-- Modelled from the spec: `Util::ToNum<T>` on a decimal string for an
unsigned target type with maximum value `maxVal` (the implementation header
is absent from the repository; §6 of the spec gives the
silent-zero-on-overflow policy). -/
def ToNum (maxVal : Nat) (s : List Char) : Nat :=
  if decimalValue s ≤ maxVal then decimalValue s else 0

theorem toDigits_length (B K v : Nat) : (toDigits B K v).length = K := by
  induction K generalizing v with
  | zero => rfl
  | succ K ih => simp [toDigits, ih]

theorem toDigits_lt (B K v : Nat) (hB : 0 < B) :
    ∀ d ∈ toDigits B K v, d < B := by
  induction K generalizing v with
  | zero => intro d hd; simp [toDigits] at hd
  | succ K ih =>
    intro d hd
    simp only [toDigits, List.mem_cons] at hd
    rcases hd with h | h
    · exact h ▸ Nat.mod_lt _ hB
    · exact ih (v / B) d h

theorem fromDigits_toDigits (B K v : Nat) :
    fromDigits B (toDigits B K v) = v % B ^ K := by
  induction K generalizing v with
  | zero => simp [toDigits, fromDigits, Nat.mod_one]
  | succ K ih =>
    rw [toDigits, fromDigits, ih, pow_succ', Nat.mod_mul]

theorem fromDigits_lt (B : Nat) (l : List Nat) (h : ∀ d ∈ l, d < B) :
    fromDigits B l < B ^ l.length := by
  induction l with
  | nil => simp [fromDigits]
  | cons d ds ih =>
    have hd : d < B := h d (List.mem_cons_self d ds)
    have hds : fromDigits B ds < B ^ ds.length :=
      ih fun x hx => h x (List.mem_cons_of_mem d hx)
    calc fromDigits B (d :: ds) = d + B * fromDigits B ds := rfl
      _ < B + B * fromDigits B ds := by omega
      _ = B * (fromDigits B ds + 1) := by ring
      _ ≤ B * B ^ ds.length := Nat.mul_le_mul_left B hds
      _ = B ^ (d :: ds).length := by rw [List.length_cons, pow_succ']

theorem toDigits_fromDigits (B : Nat) (l : List Nat) (h : ∀ d ∈ l, d < B) :
    toDigits B l.length (fromDigits B l) = l := by
  induction l with
  | nil => rfl
  | cons d ds ih =>
    have hd : d < B := h d (List.mem_cons_self d ds)
    have hB : 0 < B := Nat.lt_of_le_of_lt (Nat.zero_le d) hd
    have h1 : (d + B * fromDigits B ds) % B = d := by
      rw [Nat.add_mul_mod_self_left, Nat.mod_eq_of_lt hd]
    have h2 : (d + B * fromDigits B ds) / B = fromDigits B ds := by
      rw [Nat.add_mul_div_left _ _ hB, Nat.div_eq_of_lt hd, Nat.zero_add]
    show (fromDigits B (d :: ds)) % B ::
        toDigits B ds.length (fromDigits B (d :: ds) / B) = d :: ds
    show (d + B * fromDigits B ds) % B ::
        toDigits B ds.length ((d + B * fromDigits B ds) / B) = d :: ds
    rw [h1, h2, ih fun x hx => h x (List.mem_cons_of_mem d hx)]

theorem shiftRight_eq_zero_iff (b N : Nat) : b >>> N = 0 ↔ b < 2 ^ N := by
  rw [Nat.shiftRight_eq_div_pow]
  exact Nat.div_eq_zero_iff (Nat.pos_pow_of_pos N (by omega))

theorem all_shiftRight_iff (N : Nat) (l : List Nat) :
    (l.all fun b => b >>> N == 0) = true ↔ ∀ b ∈ l, b < 2 ^ N := by
  rw [List.all_eq_true]
  constructor
  · intro h b hb
    exact (shiftRight_eq_zero_iff b N).mp (by simpa using h b hb)
  · intro h b hb
    simpa using (shiftRight_eq_zero_iff b N).mpr (h b hb)

theorem packBits_of_packable (N K v : Nat) (h : ∀ b ∈ bytesOf K v, b < 2 ^ N) :
    PackBits N K v = fromDigits (2 ^ N) (bytesOf K v) := by
  unfold PackBits
  rw [if_pos ((all_shiftRight_iff N (bytesOf K v)).mpr h)]
  have : (bytesOf K v).map (fun b => b % 2 ^ N) = bytesOf K v := by
    rw [List.map_congr_left fun b hb => Nat.mod_eq_of_lt (h b hb)]
    simp
  rw [this]

theorem bytesOf_unpackBits (N K x : Nat) (hN : N ≤ 8) :
    bytesOf K (UnpackBits N K x) = toDigits (2 ^ N) K x := by
  have hlt : ∀ d ∈ toDigits (2 ^ N) K x, d < 256 := by
    intro d hd
    have h1 : d < 2 ^ N := toDigits_lt _ K x (Nat.pos_pow_of_pos N (by omega)) d hd
    have h2 : (2 : Nat) ^ N ≤ 2 ^ 8 := Nat.pow_le_pow_right (by omega) hN
    omega
  have hlen := toDigits_length (2 ^ N) K x
  unfold UnpackBits bytesOf
  calc toDigits 256 K (fromDigits 256 (toDigits (2 ^ N) K x))
      = toDigits 256 (toDigits (2 ^ N) K x).length
          (fromDigits 256 (toDigits (2 ^ N) K x)) := by rw [hlen]
    _ = toDigits (2 ^ N) K x := toDigits_fromDigits 256 _ hlt

theorem fromDigits_map_toDigits (B C : Nat) (f : Nat → Nat) (K v : Nat) :
    fromDigits B ((toDigits C K v).map f) =
      ∑ i in Finset.range K, f (v / C ^ i % C) * B ^ i := by
  induction K generalizing v with
  | zero => simp [toDigits, fromDigits]
  | succ K ih =>
    rw [toDigits, List.map_cons, fromDigits, ih, Finset.sum_range_succ']
    have hterm : ∀ i, f (v / C ^ (i + 1) % C) * B ^ (i + 1) =
        B * (f (v / C / C ^ i % C) * B ^ i) := by
      intro i
      rw [pow_succ' C, ← Nat.div_div_eq_div_mul]
      ring
    rw [Finset.sum_congr rfl fun i _ => hterm i, ← Finset.mul_sum]
    simp only [pow_zero, Nat.div_one, mul_one]
    omega

theorem packCore_le (N K v : Nat) (hN : N ≤ 8) :
    fromDigits (2 ^ N) ((bytesOf K v).map (fun b => b % 2 ^ N)) ≤ v := by
  induction K generalizing v with
  | zero => exact Nat.zero_le v
  | succ K ih =>
    have h1 : v % 256 % 2 ^ N ≤ v % 256 := Nat.mod_le _ _
    have h3 : (2 : Nat) ^ N ≤ 256 := by
      calc (2 : Nat) ^ N ≤ 2 ^ 8 := Nat.pow_le_pow_right (by omega) hN
        _ = 256 := by norm_num
    calc fromDigits (2 ^ N) ((bytesOf (K + 1) v).map (fun b => b % 2 ^ N))
        = v % 256 % 2 ^ N + 2 ^ N *
            fromDigits (2 ^ N) ((bytesOf K (v / 256)).map (fun b => b % 2 ^ N)) := rfl
      _ ≤ v % 256 + 256 * (v / 256) :=
          Nat.add_le_add h1 (Nat.mul_le_mul h3 (ih (v / 256)))
      _ = v := Nat.mod_add_div v 256

/-- C2: for every unsigned integer width (`K` bytes), every `N` in `[1,8]`,
and every packable value `v` (every byte of `v` has its high `8-N` bits
zero, i.e. `b >>> N = 0`), `UnpackBits N (PackBits N v) = v`. -/
theorem unpackBits_packBits (N K v : Nat) (hN1 : 1 ≤ N) (hN : N ≤ 8)
    (hv : v < 256 ^ K) (hp : ∀ b ∈ bytesOf K v, b >>> N = 0) :
    UnpackBits N K (PackBits N K v) = v := by
  have hp' : ∀ b ∈ bytesOf K v, b < 2 ^ N :=
    fun b hb => (shiftRight_eq_zero_iff b N).mp (hp b hb)
  rw [packBits_of_packable N K v hp']
  unfold UnpackBits
  have hlen : (bytesOf K v).length = K := toDigits_length 256 K v
  have hback := toDigits_fromDigits (2 ^ N) (bytesOf K v) hp'
  rw [hlen] at hback
  rw [hback]
  show fromDigits 256 (toDigits 256 K v) = v
  rw [fromDigits_toDigits, Nat.mod_eq_of_lt hv]

theorem unpackBits_packBits_witness :
    (1 ≤ 7 ∧ 7 ≤ 8 ∧ 0x1234 < 256 ^ 2 ∧
      bytesOf 2 0x1234 = [0x34, 0x12] ∧ 0x34 >>> 7 = 0 ∧ 0x12 >>> 7 = 0) ∧
    UnpackBits 7 2 (PackBits 7 2 0x1234) = 0x1234 :=
  ⟨by decide,
    unpackBits_packBits 7 2 0x1234 (by decide) (by decide) (by decide) (by decide)⟩

/-- C1: for every unsigned integer width (`K` bytes), every compaction width
`N` in `[1,8]`, and every `packed` value in `[0, 2^(K*N))`,
`PackBits N (UnpackBits N packed) = packed`: `Unpack` followed by `Pack`
is the identity on the packed domain. -/
theorem packBits_unpackBits (N K packed : Nat) (hN1 : 1 ≤ N) (hN : N ≤ 8)
    (hp : packed < 2 ^ (K * N)) :
    PackBits N K (UnpackBits N K packed) = packed := by
  have hchunks : ∀ d ∈ toDigits (2 ^ N) K packed, d < 2 ^ N :=
    toDigits_lt _ K packed (Nat.pos_pow_of_pos N (by omega))
  have hbytes := bytesOf_unpackBits N K packed hN
  have hpack : ∀ b ∈ bytesOf K (UnpackBits N K packed), b < 2 ^ N := by
    rw [hbytes]; exact hchunks
  rw [packBits_of_packable N K _ hpack, hbytes, fromDigits_toDigits,
    ← pow_mul, Nat.mul_comm N K, Nat.mod_eq_of_lt hp]

theorem packBits_unpackBits_witness :
    (1 ≤ 7 ∧ 7 ≤ 8 ∧ 0x1234 < 2 ^ (2 * 7)) ∧
    PackBits 7 2 (UnpackBits 7 2 0x1234) = 0x1234 :=
  ⟨by decide, packBits_unpackBits 7 2 0x1234 (by decide) (by decide) (by decide)⟩

/-- C3: for every `N` in `[1,8]` and every value where at least one byte has
nonzero bits above its low `N` (its top `8-N` bits are nonzero),
`PackBits N value = value`: the only error signal of `Pack` is the silently
returned unchanged input. -/
theorem packBits_reject (N K value : Nat)
    (h : ∃ b ∈ bytesOf K value, b >>> N ≠ 0) :
    PackBits N K value = value := by
  unfold PackBits
  rw [if_neg]
  intro hall
  obtain ⟨b, hb, hne⟩ := h
  rw [List.all_eq_true] at hall
  exact hne (by simpa using hall b hb)

theorem packBits_reject_witness :
    (0x78 ∈ bytesOf 4 0x12345678 ∧ 0x78 >>> 6 ≠ 0) ∧
    PackBits 6 4 0x12345678 = 0x12345678 :=
  ⟨⟨by decide, by decide⟩,
    packBits_reject 6 4 0x12345678 ⟨0x78, by decide, by decide⟩⟩

/-- C5: `UnpackBits` is total (it is a total function of its input) and for
every `N` in `[1,8]` and every input `x`, every byte of `UnpackBits N x` has
its high `8-N` bits zero: `Unpack` only ever produces packable values. -/
theorem unpackBits_output_packable (N K x : Nat) (hN1 : 1 ≤ N) (hN : N ≤ 8) :
    (bytesOf K (UnpackBits N K x)).all (fun b => b >>> N == 0) = true := by
  rw [bytesOf_unpackBits N K x hN]
  exact (all_shiftRight_iff N _).mpr
    (toDigits_lt _ K x (Nat.pos_pow_of_pos N (by omega)))

theorem unpackBits_output_packable_witness :
    (1 ≤ 7 ∧ 7 ≤ 8) ∧
    (bytesOf 2 (UnpackBits 7 2 0x1234)).all (fun b => b >>> 7 == 0) = true :=
  ⟨by decide, unpackBits_output_packable 7 2 0x1234 (by decide) (by decide)⟩

/-- C6: at compaction width `N = 8`, both `PackBits` and `UnpackBits` are
identity transforms on every value of every unsigned width. -/
theorem packBits_unpackBits_id_at_width8 (K v : Nat) (hv : v < 256 ^ K) :
    PackBits 8 K v = v ∧ UnpackBits 8 K v = v := by
  have h256 : (2 : Nat) ^ 8 = 256 := by norm_num
  have hbytes : ∀ b ∈ bytesOf K v, b < 2 ^ 8 := by
    rw [h256]; exact toDigits_lt 256 K v (by omega)
  constructor
  · rw [packBits_of_packable 8 K v hbytes]
    show fromDigits (2 ^ 8) (toDigits 256 K v) = v
    rw [h256, fromDigits_toDigits, Nat.mod_eq_of_lt hv]
  · show fromDigits 256 (toDigits (2 ^ 8) K v) = v
    rw [h256, fromDigits_toDigits, Nat.mod_eq_of_lt hv]

theorem packBits_unpackBits_id_at_width8_witness :
    0x1234ABCD < 256 ^ 4 ∧
    (PackBits 8 4 0x1234ABCD = 0x1234ABCD ∧ UnpackBits 8 4 0x1234ABCD = 0x1234ABCD) :=
  ⟨by decide, packBits_unpackBits_id_at_width8 4 0x1234ABCD (by decide)⟩

/-- C4: for every `N` in `[1,8]` and every packable value `v` of `K` bytes,
`PackBits N v` equals the concatenation of the low `N` bits of the `K` bytes
of `v` taken most-significant byte first, right-aligned (byte `i`, counted
from the least significant end, contributes its low `N` bits at chunk
position `i`); in particular `PackBits 7 0x1234 = 0x0934` and
`PackBits 5 0x1F1F1F1F1F1F1F1F = 0x000000FFFFFFFFFF`. -/
theorem packBits_concat_formula (N K v : Nat) (hN1 : 1 ≤ N) (hN : N ≤ 8)
    (hp : ∀ b ∈ bytesOf K v, b >>> N = 0) :
    PackBits N K v =
      ∑ i in Finset.range K, (v / 256 ^ i % 256 % 2 ^ N) * (2 ^ N) ^ i ∧
    PackBits 7 2 0x1234 = 0x0934 ∧
    PackBits 5 8 0x1F1F1F1F1F1F1F1F = 0x000000FFFFFFFFFF := by
  refine ⟨?_, by decide, by decide⟩
  have hp' : ∀ b ∈ bytesOf K v, b < 2 ^ N :=
    fun b hb => (shiftRight_eq_zero_iff b N).mp (hp b hb)
  have hall := (all_shiftRight_iff N (bytesOf K v)).mpr hp'
  unfold PackBits
  rw [if_pos hall]
  exact fromDigits_map_toDigits (2 ^ N) 256 (fun b => b % 2 ^ N) K v

theorem packBits_concat_formula_witness :
    (1 ≤ 7 ∧ 7 ≤ 8 ∧
      bytesOf 2 0x1234 = [0x34, 0x12] ∧ 0x34 >>> 7 = 0 ∧ 0x12 >>> 7 = 0) ∧
    (PackBits 7 2 0x1234 =
        ∑ i in Finset.range 2, (0x1234 / 256 ^ i % 256 % 2 ^ 7) * (2 ^ 7) ^ i ∧
      PackBits 7 2 0x1234 = 0x0934 ∧
      PackBits 5 8 0x1F1F1F1F1F1F1F1F = 0x000000FFFFFFFFFF) :=
  ⟨by decide,
    packBits_concat_formula 7 2 0x1234 (by decide) (by decide) (by decide)⟩

/-- C10: for every `N` in `[1,8]`, every byte count `K` and every unsigned
value `v`, `PackBits N v ≤ v`: packing never increases the value, since a
rejected input is returned unchanged and a packed result moves every retained
bit to an equal or lower bit position. -/
theorem packBits_le (N K v : Nat) (hN1 : 1 ≤ N) (hN : N ≤ 8) :
    PackBits N K v ≤ v := by
  unfold PackBits
  split
  · exact packCore_le N K v hN
  · exact Nat.le_refl v

theorem packBits_le_witness :
    (1 ≤ 7 ∧ 7 ≤ 8) ∧ PackBits 7 4 0xFF7F7F7F ≤ 0xFF7F7F7F :=
  ⟨by decide, packBits_le 7 4 0xFF7F7F7F (by decide) (by decide)⟩

/-- C8: `ReverseBytes` is an involution: for every `K`-byte unsigned value
`v`, `ReverseBytes (ReverseBytes v) = v`; for a 1-byte value it is the
identity; and on fixed-size byte/char sequences reversing twice restores the
sequence. -/
theorem reverseBytes_involution (K v w : Nat) (buf : List Char)
    (hv : v < 256 ^ K) (hw : w < 256) :
    ReverseBytes K (ReverseBytes K v) = v ∧
    ReverseBytes 1 w = w ∧
    ReverseBytesSeq (ReverseBytesSeq buf) = buf := by
  refine ⟨?_, ?_, List.reverse_reverse buf⟩
  · have hlt : ∀ d ∈ (bytesOf K v).reverse, d < 256 := by
      intro d hd
      exact toDigits_lt 256 K v (by omega) d (List.mem_reverse.mp hd)
    have hlen : (bytesOf K v).reverse.length = K := by
      rw [List.length_reverse]; exact toDigits_length 256 K v
    have hback := toDigits_fromDigits 256 (bytesOf K v).reverse hlt
    rw [hlen] at hback
    show fromDigits 256 (bytesOf K (ReverseBytes K v)).reverse = v
    have hb2 : bytesOf K (ReverseBytes K v) = (bytesOf K v).reverse := hback
    rw [hb2, List.reverse_reverse]
    show fromDigits 256 (toDigits 256 K v) = v
    rw [fromDigits_toDigits, Nat.mod_eq_of_lt hv]
  · show fromDigits 256 (bytesOf 1 w).reverse = w
    show w % 256 + 256 * 0 = w
    omega

theorem reverseBytes_involution_witness :
    (0x11223344 < 256 ^ 4 ∧ 0xAA < 256) ∧
    (ReverseBytes 4 (ReverseBytes 4 0x11223344) = 0x11223344 ∧
      ReverseBytes 1 0xAA = 0xAA ∧
      ReverseBytesSeq (ReverseBytesSeq ['a', 'b', 'c', 'x', 'y', 'z']) =
        ['a', 'b', 'c', 'x', 'y', 'z']) :=
  ⟨⟨by decide, by decide⟩,
    reverseBytes_involution 4 0x11223344 0xAA ['a', 'b', 'c', 'x', 'y', 'z']
      (by decide) (by decide)⟩

/-- C7 (counterexample): on a little-endian host (`bigHost = false`),
`ToBigEndian (ToLittleEndian v)` is NOT `v` for the 4-byte value
`0x11223344`: the composition byte-reverses the value. -/
theorem endian_roundtrip_counterexample :
    ¬ ToBigEndian false 4 (ToLittleEndian false 4 0x11223344) = 0x11223344 := by
  decide

/-- C7 (amended): for every host endianness, every byte count `K` and every
value `v`, `ToBigEndian (ToLittleEndian v)` equals `ReverseBytes v`: the
composition is a true byte reversal regardless of host order, and equals `v`
only on byte-palindromic values. -/
theorem endian_roundtrip_reverse (bigHost : Bool) (K v : Nat) :
    ToBigEndian bigHost K (ToLittleEndian bigHost K v) = ReverseBytes K v := by
  cases bigHost <;> simp [ToBigEndian, ToLittleEndian]

/-- C9: `ToNum` applied to a numeric string whose value overflows the target
type (exceeds its maximum `maxVal`) silently returns zero rather than raising
or saturating. -/
theorem toNum_overflow_silent_zero (maxVal : Nat) (s : List Char)
    (h : maxVal < decimalValue s) : ToNum maxVal s = 0 := by
  unfold ToNum
  rw [if_neg (by omega)]

theorem toNum_overflow_silent_zero_witness :
    255 < decimalValue ['1', '2', '3', '4'] ∧
    ToNum 255 ['1', '2', '3', '4'] = 0 :=
  ⟨by decide, toNum_overflow_silent_zero 255 ['1', '2', '3', '4'] (by decide)⟩
